import Mathlib

/-!
Verification of the chunking / similarity-retrieval pipeline of a RAG service.

The definitions below are a shallow embedding of the Python sources:
  - `app/pdf_utils.py`  (`chunk_text`)
  - `app/rag.py`        (`calculate_cosine_similarity`, `retrieve_context`)
  - `app/milvus_client.py` (`insert_chunks`, `search_similar`)

Text is modelled as `List Char`; Python `int` indices are modelled as `ℤ`
with Python's negative-index / clamping slice semantics made explicit;
floating-point vectors are idealised as lists of real numbers; functions
that can raise are modelled with `Except`; the unbounded `while` loop of
`chunk_text` is modelled with explicit fuel (`none` = the loop has not
finished within the given fuel, for any fuel).
-/

namespace RagSpec

/-! ### Python string primitives -/

/-- Newline character (written via its code point). -/
def nlChar : Char := Char.ofNat 10

/-- Single-quote character. -/
def sqChar : Char := Char.ofNat 39

/-- Double-quote character. -/
def dqChar : Char := Char.ofNat 34

/-- Backslash character. -/
def bsChar : Char := Char.ofNat 92

/-- ASCII whitespace as recognised by Python `str.strip()` (space, tab,
newline, carriage return, vertical tab, form feed).  Non-ASCII Unicode
whitespace does not occur in the texts the claims are about. -/
def pyIsSpace (c : Char) : Bool :=
  c = ' ' || c = Char.ofNat 9 || c = nlChar || c = Char.ofNat 13 ||
  c = Char.ofNat 11 || c = Char.ofNat 12

/-- Python `str.strip()`: drop whitespace from both ends. -/
def pyStrip (t : List Char) : List Char :=
  (t.dropWhile pyIsSpace).rdropWhile pyIsSpace

/-- Python slice-index adjustment for a string of length `len`: a negative
index counts from the end, and the result is clamped into `[0, len]`. -/
def pyAdjIdx (len : ℕ) (i : ℤ) : ℕ :=
  min ((if i < 0 then i + len else i).toNat) len

/-- Python `t[a:b]` (step 1). -/
def pySlice (t : List Char) (a b : ℤ) : List Char :=
  (t.take (pyAdjIdx t.length b)).drop (pyAdjIdx t.length a)

/-- Scan positions `k, k-1, ..., 0` (subject to `lo ≤ position`) for the
highest position where `pat` occurs in `t`. -/
def rfindDown (t pat : List Char) (lo : ℕ) : ℕ → Option ℕ
  | 0 => if lo = 0 ∧ pat.isPrefixOf t = true then some 0 else none
  | k + 1 =>
    if lo ≤ k + 1 ∧ pat.isPrefixOf (t.drop (k + 1)) = true then some (k + 1)
    else rfindDown t pat lo k

/-- Python `t.rfind(pat, a, b)`: the highest position `p` with
`adj a ≤ p` and `p + pat.length ≤ adj b` at which `pat` occurs in `t`,
or `-1` when there is none.  `a` and `b` are adjusted like slice bounds. -/
def pyRfind (t pat : List Char) (a b : ℤ) : ℤ :=
  let lo := pyAdjIdx t.length a
  let hi := pyAdjIdx t.length b
  if pat.length ≤ hi then
    match rfindDown t pat lo (hi - pat.length) with
    | some p => (p : ℤ)
    | none => -1
  else -1

/-- Python `s.replace(c, r)` for a single-character pattern `c`. -/
def pyReplace (s : List Char) (c : Char) (r : List Char) : List Char :=
  s.flatMap fun ch => if ch = c then r else [ch]

/-! ### The chunker (`chunk_text` in `app/pdf_utils.py`) -/

/-- The sentence-terminator patterns, in the exact order the Python `for`
loop tries them: `". "`, `".\n"`, `"! "`, `"!\n"`, `"? "`, `"?\n"`. -/
def sentencePats : List (List Char) :=
  [['.', ' '], ['.', nlChar], ['!', ' '], ['!', nlChar], ['?', ' '], ['?', nlChar]]

/-- The `for punct in [...]` loop body: try each pattern in order with
`rfind` and stop at the first pattern that occurs at all. -/
def firstRfind (t : List Char) (a b : ℤ) : List (List Char) → Option ℤ
  | [] => none
  | pat :: rest =>
    if pyRfind t pat a b = -1 then firstRfind t a b rest
    else some (pyRfind t pat a b)

/-- The soft-break search of `chunk_text` over the fixed pattern list. -/
def softBreakPos (t : List Char) (a b : ℤ) : Option ℤ :=
  firstRfind t a b sentencePats

/-- The chunk end computed by one iteration of the `chunk_text` loop
starting at cursor `start`: tentatively `start + cs`, moved to
`last_punct + 1` when the tentative end is strictly before the text end
and some sentence pattern is found in the window. -/
def chunkEnd (t : List Char) (cs start : ℤ) : ℤ :=
  if start + cs < (t.length : ℤ) then
    match softBreakPos t start (start + cs) with
    | some p => p + 1
    | none => start + cs
  else start + cs

/-- The `while start < len(text)` loop of `chunk_text`, with fuel.
Each iteration computes the chunk end, strips the slice, appends it when
non-empty, and advances the cursor to `end - overlap`. -/
def chunkLoop (t : List Char) (cs ov : ℤ) : ℕ → ℤ → List (List Char) → Option (List (List Char))
  | 0, _, _ => none
  | fuel + 1, start, acc =>
    if start < (t.length : ℤ) then
      chunkLoop t cs ov fuel (chunkEnd t cs start - ov)
        (if pyStrip (pySlice t start (chunkEnd t cs start)) = [] then acc
         else acc ++ [pyStrip (pySlice t start (chunkEnd t cs start))])
    else some acc

/-- `chunk_text(text, chunk_size, overlap)`: returns `some chunks` when the
loop finishes within `fuel` iterations, `none` otherwise. -/
def chunk_text (t : List Char) (cs ov : ℤ) (fuel : ℕ) : Option (List (List Char)) :=
  if pyStrip t = [] then some [] else chunkLoop t cs ov fuel 0 []

/-- Modelled from the spec (for comparison with the code, not from the
source): the spec's soft break is "the rightmost occurrence of ANY
sentence-terminator-plus-whitespace pattern" in the window, i.e. the
maximum over all six patterns of each pattern's rightmost occurrence. -/
def specSoftBreakPos (t : List Char) (a b : ℤ) : Option ℤ :=
  (sentencePats.filterMap fun pat =>
    if pyRfind t pat a b = -1 then none else some (pyRfind t pat a b)).max?

/-- Bounded check that `pat` occurs somewhere in the window `[lo, hi)`
(the whole pattern inside the window). -/
def patInWindowB (t pat : List Char) (lo hi : ℕ) : Bool :=
  (List.range hi).any fun q =>
    decide (lo ≤ q) && decide (q + pat.length ≤ hi) && pat.isPrefixOf (t.drop q)

/-! ### The similarity scorer (`calculate_cosine_similarity` in `app/rag.py`) -/

/-- `np.dot` value on two 1-d arrays (defined for the equal-length case;
`calculate_cosine_similarity` raises before using it otherwise). -/
noncomputable def npDot (a b : List ℝ) : ℝ :=
  (List.zipWith (· * ·) a b).sum

/-- Sum of squares of the entries. -/
noncomputable def sumSq (a : List ℝ) : ℝ :=
  (a.map fun x => x ^ 2).sum

/-- `np.linalg.norm`: Euclidean norm. -/
noncomputable def npNorm (a : List ℝ) : ℝ :=
  Real.sqrt (sumSq a)

/-- `calculate_cosine_similarity(vec1, vec2)`.  `np.dot` raises a
`ValueError` (shapes not aligned) on 1-d arrays of different lengths,
modelled as `Except.error`; otherwise the result is the dot product over
the product of the Euclidean norms, with `0.0` returned when either norm
is zero. -/
noncomputable def calculate_cosine_similarity (a b : List ℝ) : Except String ℝ :=
  if a.length ≠ b.length then .error "shapes not aligned"
  else if npNorm a = 0 ∨ npNorm b = 0 then .ok 0
  else .ok (npDot a b / (npNorm a * npNorm b))

/-! ### The retrieval orchestrator (`retrieve_context` in `app/rag.py`) -/

/-- One search hit as returned by the vector store: the stored chunk text,
the L2 distance, and (when `include_embeddings` was requested and the
field is present) the stored embedding. -/
structure Hit where
  chunk : List Char
  distance : ℝ
  embedding : Option (List ℝ)

/-- One entry of `similarity_info`. -/
structure SimRecord where
  chunk : List Char
  l2 : ℝ
  cosine : ℝ
  percentage : ℝ

/-- Round-half-to-even of a real number, the rounding mode of Python
`round`. -/
noncomputable def roundHalfEven (x : ℝ) : ℤ :=
  if x - ⌊x⌋ < 1 / 2 then ⌊x⌋
  else if 1 / 2 < x - ⌊x⌋ then ⌊x⌋ + 1
  else if Even ⌊x⌋ then ⌊x⌋ else ⌊x⌋ + 1

/-- Python `round(y, 2)`: round to two decimal places, half to even. -/
noncomputable def pyRound2 (y : ℝ) : ℝ :=
  (roundHalfEven (y * 100) : ℝ) / 100

/-- The fallback cosine of `retrieve_context`:
`1 - distance**2 / 2` clamped into `[-1, 1]`. -/
noncomputable def approxCos (d : ℝ) : ℝ :=
  max (-1) (min 1 (1 - d ^ 2 / 2))

/-- The similarity record built from a hit whose embedding is absent or
empty (Python truthiness: `if chunk_embedding:`). -/
noncomputable def fallbackRecord (h : Hit) : SimRecord :=
  ⟨h.chunk, h.distance, approxCos h.distance, pyRound2 (approxCos h.distance * 100)⟩

/-- The similarity record for one hit: exact cosine from the stored
embedding when it is present and non-empty, the L2-based approximation
otherwise.  A dimension mismatch inside `calculate_cosine_similarity`
propagates as an error, as the Python exception would. -/
noncomputable def mkSimRecord (q : List ℝ) (h : Hit) : Except String SimRecord :=
  match h.embedding with
  | some e =>
    match e with
    | [] => .ok (fallbackRecord h)
    | _ =>
      match calculate_cosine_similarity q e with
      | .error err => .error err
      | .ok c => .ok ⟨h.chunk, h.distance, c, pyRound2 (c * 100)⟩
  | none => .ok (fallbackRecord h)

/-- The result-processing loop of `retrieve_context`: collect chunk texts
in store order and, when similarities are requested, the parallel list of
similarity records. -/
noncomputable def processHits (q : List ℝ) (retSims : Bool) :
    List Hit → Except String (List (List Char) × List SimRecord)
  | [] => .ok ([], [])
  | h :: rest =>
    match (if retSims then (mkSimRecord q h).map some else .ok none) with
    | .error err => .error err
    | .ok r =>
      match processHits q retSims rest with
      | .error err => .error err
      | .ok p =>
        .ok (h.chunk :: p.1, match r with | some r => r :: p.2 | none => p.2)

/-- `retrieve_context` returns `chunks, similarity_info` when
`return_similarities` is true and just `chunks` otherwise. -/
inductive RetrieveResult where
  | plain (chunks : List (List Char))
  | withSims (chunks : List (List Char)) (sims : List SimRecord)

/-- The final `return` of `retrieve_context`. -/
def finishRetrieve (retSims : Bool) (cs : List (List Char)) (rs : List SimRecord) :
    RetrieveResult :=
  if retSims then .withSims cs rs else .plain cs

/-- The query vector used by `retrieve_context`, together with the number
of embedding-service calls made to obtain it: the precomputed override is
reused when supplied, otherwise the embedding service is called once. -/
def queryVec (embedOne : List Char → List ℝ) (query : List Char)
    (ov : Option (List ℝ)) : List ℝ × ℕ :=
  match ov with
  | some v => (v, 0)
  | none => (embedOne query, 1)

/-- `retrieve_context(file_id, query, top_k, return_similarities,
query_embedding_override)`.  The embedding service is the function
`embedOne`; the vector store search (already scoped to the file id and
top-k, which the claims do not vary) is the function `search`, taking the
query vector and the `include_embeddings` flag.  The second component
counts the embedding-service calls made. -/
noncomputable def retrieve_context (embedOne : List Char → List ℝ)
    (search : List ℝ → Bool → List Hit) (query : List Char) (retSims : Bool)
    (ov : Option (List ℝ)) : Except String RetrieveResult × ℕ :=
  let qc := queryVec embedOne query ov
  ((processHits qc.1 retSims (search qc.1 retSims)).map fun p =>
    finishRetrieve retSims p.1 p.2, qc.2)

/-! ### The vector-store client (`app/milvus_client.py`) -/

/-- The escaping `search_similar` applies to the cleaned file id before
interpolating it into the filter expression: each single quote and each
double quote is prefixed with a backslash (two successive `str.replace`
calls). -/
def escape_file_id (s : List Char) : List Char :=
  pyReplace (pyReplace s sqChar [bsChar, sqChar]) dqChar [bsChar, dqChar]

/-- Single-character escaping: quote characters get a backslash, every
other character passes through unchanged. -/
def escChar (c : Char) : List Char :=
  if c = sqChar then [bsChar, sqChar]
  else if c = dqChar then [bsChar, dqChar]
  else [c]

/-- The literal prefix of the filter expression built by `search_similar`:
`file_id == '` (final character is the opening single quote). -/
def exprPrefix : List Char :=
  ['f', 'i', 'l', 'e', '_', 'i', 'd', ' ', '=', '=', ' ', sqChar]

/-- The search request `search_similar` hands to the vector store: the
filter expression and the `include_embeddings` choice of output fields. -/
structure SearchCall where
  expr : List Char
  includeEmb : Bool
deriving DecidableEq, Repr

/-- `search_similar(collection, query_embedding, file_id, top_k,
include_embeddings)`, up to the point where the query is issued:
raises `ValueError` when the file id is empty or whitespace-only,
otherwise strips it, escapes quotes, builds the filter expression and
issues the search (`.ok` = the query was issued with that expression). -/
def search_similar (fileId : List Char) (includeEmbeddings : Bool) :
    Except String SearchCall :=
  if fileId = [] ∨ pyStrip fileId = [] then .error "file_id cannot be empty"
  else
    .ok ⟨exprPrefix ++ escape_file_id (pyStrip fileId) ++ [sqChar], includeEmbeddings⟩

/-- An observable effect on the vector store issued by `insert_chunks`. -/
inductive StoreEvent (α : Type) where
  | insert (fileIds : List (List Char)) (chunks : List (List Char))
      (embeddings : List (List α))
  | flush
deriving DecidableEq

/-- `insert_chunks(collection, file_id, chunks, embeddings)`.  The scalar
type of embeddings is abstract (only lengths are inspected before
persisting).  The second component is the list of store effects actually
issued: every validation failure happens before `collection.insert`, so an
error leaves the effect list empty.  Chunk texts longer than 10000
characters are truncated, not rejected. -/
def insert_chunks {α : Type} (fileId : List Char) (chunks : List (List Char))
    (embeddings : List (List α)) :
    Except String (List (List Char) × List (List α)) × List (StoreEvent α) :=
  if fileId = [] ∨ pyStrip fileId = [] then (.error "file_id cannot be empty", [])
  else if chunks = [] then (.error "chunks cannot be empty", [])
  else if embeddings.length = 0 then (.error "embeddings cannot be empty", [])
  else if chunks.length ≠ embeddings.length then
    (.error "chunks and embeddings must have the same length", [])
  else if 255 < (pyStrip fileId).length then
    (.error "file_id exceeds max length of 255", [])
  else
    let truncated := chunks.map fun c => c.take 10000
    if embeddings.any fun e => e.length ≠ 1536 then
      (.error "embedding has wrong dimension", [])
    else
      (.ok (truncated, embeddings),
       [.insert (List.replicate chunks.length (pyStrip fileId)) truncated embeddings,
        .flush])

/-! ### Lemmas about the string primitives -/

lemma rfindDown_some (t pat : List Char) (lo : ℕ) :
    ∀ k p, rfindDown t pat lo k = some p →
      lo ≤ p ∧ p ≤ k ∧ pat.isPrefixOf (t.drop p) = true := by
  intro k
  induction k with
  | zero =>
    intro p h
    rw [rfindDown] at h
    split_ifs at h with hc
    obtain rfl : (0 : ℕ) = p := Option.some.inj h
    exact ⟨Nat.le_of_eq hc.1, Nat.le_refl 0, by simpa using hc.2⟩
  | succ k ih =>
    intro p h
    rw [rfindDown] at h
    split_ifs at h with hc
    · obtain rfl : k + 1 = p := Option.some.inj h
      exact ⟨hc.1, Nat.le_refl _, hc.2⟩
    · obtain ⟨h1, h2, h3⟩ := ih p h
      exact ⟨h1, Nat.le_succ_of_le h2, h3⟩

lemma rfindDown_max (t pat : List Char) (lo : ℕ) :
    ∀ k p, rfindDown t pat lo k = some p →
      ∀ q, p < q → q ≤ k → pat.isPrefixOf (t.drop q) = false := by
  intro k
  induction k with
  | zero =>
    intro p h q hq1 hq2
    obtain ⟨-, h2, -⟩ := rfindDown_some t pat lo 0 p h
    omega
  | succ k ih =>
    intro p h q hq1 hq2
    rw [rfindDown] at h
    split_ifs at h with hc
    · obtain rfl : k + 1 = p := Option.some.inj h
      omega
    · rcases Nat.lt_or_ge q (k + 1) with hq | hq
      · exact ih p h q hq1 (by omega)
      · obtain rfl : q = k + 1 := by omega
        obtain ⟨h1, -, -⟩ := rfindDown_some t pat lo k p h
        cases hb : pat.isPrefixOf (t.drop (k + 1)) with
        | false => rfl
        | true => exact absurd ⟨by omega, hb⟩ hc

lemma rfindDown_none (t pat : List Char) (lo : ℕ) :
    ∀ k, rfindDown t pat lo k = none →
      ∀ q, lo ≤ q → q ≤ k → pat.isPrefixOf (t.drop q) = false := by
  intro k
  induction k with
  | zero =>
    intro h q hq1 hq2
    rw [rfindDown] at h
    split_ifs at h with hc
    obtain rfl : q = 0 := by omega
    cases hb : pat.isPrefixOf (t.drop 0) with
    | false => rfl
    | true => exact absurd ⟨by omega, by simpa using hb⟩ hc
  | succ k ih =>
    intro h q hq1 hq2
    rw [rfindDown] at h
    split_ifs at h with hc
    rcases Nat.lt_or_ge q (k + 1) with hq | hq
    · exact ih h q hq1 (by omega)
    · obtain rfl : q = k + 1 := by omega
      cases hb : pat.isPrefixOf (t.drop (k + 1)) with
      | false => rfl
      | true => exact absurd ⟨hq1, hb⟩ hc

/-- Characterisation of a successful `pyRfind`: it returns the rightmost
in-window occurrence of the pattern. -/
lemma pyRfind_spec (t pat : List Char) (a b : ℤ) (h : pyRfind t pat a b ≠ -1) :
    ∃ p : ℕ, pyRfind t pat a b = (p : ℤ) ∧
      pyAdjIdx t.length a ≤ p ∧ p + pat.length ≤ pyAdjIdx t.length b ∧
      pat.isPrefixOf (t.drop p) = true ∧
      ∀ q : ℕ, pyAdjIdx t.length a ≤ q → q + pat.length ≤ pyAdjIdx t.length b →
        pat.isPrefixOf (t.drop q) = true → q ≤ p := by
  rw [pyRfind] at h ⊢
  split_ifs at h ⊢ with hg
  · cases hr : rfindDown t pat (pyAdjIdx t.length a) (pyAdjIdx t.length b - pat.length) with
    | none => rw [hr] at h; exact absurd rfl h
    | some p =>
      obtain ⟨h1, h2, h3⟩ := rfindDown_some t pat _ _ p hr
      refine ⟨p, rfl, h1, by omega, h3, ?_⟩
      intro q hq1 hq2 hq3
      by_contra hq
      have hfalse := rfindDown_max t pat _ _ p hr q (by omega) (by omega)
      rw [hq3] at hfalse
      exact Bool.true_eq_false.mp hfalse
  · exact absurd rfl h

/-- `pyRfind` returns `-1` exactly when the pattern has no in-window
occurrence. -/
lemma pyRfind_eq_neg_iff (t pat : List Char) (a b : ℤ) :
    pyRfind t pat a b = -1 ↔
      ∀ q : ℕ, pyAdjIdx t.length a ≤ q → q + pat.length ≤ pyAdjIdx t.length b →
        pat.isPrefixOf (t.drop q) = false := by
  constructor
  · intro h q hq1 hq2
    rw [pyRfind] at h
    split_ifs at h with hg
    · cases hr : rfindDown t pat (pyAdjIdx t.length a) (pyAdjIdx t.length b - pat.length) with
      | none => exact rfindDown_none t pat _ _ hr q hq1 (by omega)
      | some p => rw [hr] at h; exact absurd h (by simp)
    · omega
  · intro hall
    by_contra h
    obtain ⟨p, -, h1, h2, h3, -⟩ := pyRfind_spec t pat a b h
    rw [hall p h1 h2] at h3
    exact Bool.false_eq_true.mp h3

lemma patInWindowB_of_occ (t pat : List Char) (lo hi q : ℕ) (hp : pat ≠ [])
    (h1 : lo ≤ q) (h2 : q + pat.length ≤ hi) (h3 : pat.isPrefixOf (t.drop q) = true) :
    patInWindowB t pat lo hi = true := by
  have hlen : 0 < pat.length := List.length_pos.mpr hp
  rw [patInWindowB, List.any_eq_true]
  refine ⟨q, List.mem_range.mpr (by omega), ?_⟩
  simp only [Bool.and_eq_true, decide_eq_true_eq]
  exact ⟨⟨h1, h2⟩, h3⟩

lemma patInWindowB_false (t pat : List Char) (lo hi : ℕ) (hp : pat ≠ [])
    (h : patInWindowB t pat lo hi = false) :
    ∀ q, lo ≤ q → q + pat.length ≤ hi → pat.isPrefixOf (t.drop q) = false := by
  intro q h1 h2
  cases hb : pat.isPrefixOf (t.drop q) with
  | false => rfl
  | true => rw [patInWindowB_of_occ t pat lo hi q hp h1 h2 hb] at h; exact absurd h (by simp)

lemma patInWindowB_true (t pat : List Char) (lo hi : ℕ)
    (h : patInWindowB t pat lo hi = true) :
    ∃ q, lo ≤ q ∧ q + pat.length ≤ hi ∧ pat.isPrefixOf (t.drop q) = true := by
  rw [patInWindowB, List.any_eq_true] at h
  obtain ⟨q, -, hq⟩ := h
  simp only [Bool.and_eq_true, decide_eq_true_eq] at hq
  exact ⟨q, hq.1.1, hq.1.2, hq.2⟩

lemma pyRfind_eq_neg_of_window (t pat : List Char) (a b : ℤ) (hp : pat ≠ [])
    (h : patInWindowB t pat (pyAdjIdx t.length a) (pyAdjIdx t.length b) = false) :
    pyRfind t pat a b = -1 :=
  (pyRfind_eq_neg_iff t pat a b).mpr (patInWindowB_false t pat _ _ hp h)

lemma pyRfind_ne_neg_of_window (t pat : List Char) (a b : ℤ)
    (h : patInWindowB t pat (pyAdjIdx t.length a) (pyAdjIdx t.length b) = true) :
    pyRfind t pat a b ≠ -1 := by
  intro hneg
  obtain ⟨q, h1, h2, h3⟩ := patInWindowB_true t pat _ _ h
  rw [(pyRfind_eq_neg_iff t pat a b).mp hneg q h1 h2] at h3
  exact Bool.false_eq_true.mp h3

lemma dropWhile_prefix_eq {p : Char → Bool} {L R : List Char} (hpre : R <+: L)
    (hL : L.dropWhile p = L) : R.dropWhile p = R := by
  cases R with
  | nil => rfl
  | cons c cr =>
    obtain ⟨s, hs⟩ := hpre
    rw [← hs] at hL
    rw [List.cons_append] at hL
    simp only [List.dropWhile_cons] at hL ⊢
    split_ifs at hL ⊢ with hp
    · have hlen : (List.dropWhile p (cr ++ s)).length ≤ (cr ++ s).length :=
        (List.dropWhile_sublist p).length_le
      have hlen2 : (List.dropWhile p (cr ++ s)).length = (c :: (cr ++ s)).length := by
        rw [hL]
      simp only [List.length_cons, List.length_append] at hlen2 hlen
      omega
    · rfl

lemma pyStrip_idem (t : List Char) : pyStrip (pyStrip t) = pyStrip t := by
  rw [pyStrip, pyStrip]
  have h2 : ((t.dropWhile pyIsSpace).rdropWhile pyIsSpace).dropWhile pyIsSpace
      = (t.dropWhile pyIsSpace).rdropWhile pyIsSpace :=
    dropWhile_prefix_eq (List.rdropWhile_prefix pyIsSpace (t.dropWhile pyIsSpace))
      (List.dropWhile_idempotent pyIsSpace t)
  rw [h2, List.rdropWhile_idempotent]

lemma pyStrip_length_le (t : List Char) : (pyStrip t).length ≤ t.length :=
  le_trans (List.rdropWhile_prefix pyIsSpace (t.dropWhile pyIsSpace)).length_le
    (List.dropWhile_sublist pyIsSpace).length_le

lemma pyAdjIdx_le (len : ℕ) (i : ℤ) : pyAdjIdx len i ≤ len :=
  min_le_right _ _

lemma pyAdjIdx_add_le (len : ℕ) (a c : ℤ) (hc : 0 ≤ c) :
    (pyAdjIdx len (a + c) : ℤ) ≤ (pyAdjIdx len a : ℤ) + c := by
  unfold pyAdjIdx
  split_ifs <;> omega

lemma pyAdjIdx_of_nat (len : ℕ) (q : ℕ) (hq : q ≤ len) :
    pyAdjIdx len (q : ℤ) = q := by
  unfold pyAdjIdx
  split_ifs <;> omega

lemma pySlice_length (t : List Char) (a b : ℤ) :
    (pySlice t a b).length = pyAdjIdx t.length b - pyAdjIdx t.length a := by
  rw [pySlice, List.length_drop, List.length_take]
  have := pyAdjIdx_le t.length b
  omega

/-! ### Lemmas about the soft-break search -/

lemma sentencePats_length : ∀ pat ∈ sentencePats, pat.length = 2 := by decide

lemma sentencePats_ne_nil : ∀ pat ∈ sentencePats, pat ≠ [] := by decide

lemma firstRfind_eq_none (t : List Char) (a b : ℤ) :
    ∀ ps : List (List Char), (∀ pat ∈ ps, pyRfind t pat a b = -1) →
      firstRfind t a b ps = none := by
  intro ps
  induction ps with
  | nil => intro _; rfl
  | cons pat rest ih =>
    intro h
    rw [firstRfind, if_pos (h pat (List.mem_cons_self pat rest))]
    exact ih fun p hp => h p (List.mem_cons_of_mem pat hp)

lemma firstRfind_eq_some (t : List Char) (a b : ℤ) :
    ∀ (ps : List (List Char)) (j : ℕ) (pat : List Char), ps[j]? = some pat →
      pyRfind t pat a b ≠ -1 →
      (∀ i pat', i < j → ps[i]? = some pat' → pyRfind t pat' a b = -1) →
      firstRfind t a b ps = some (pyRfind t pat a b) := by
  intro ps
  induction ps with
  | nil => intro j pat h; simp at h
  | cons p0 rest ih =>
    intro j pat hj hne hprev
    cases j with
    | zero =>
      obtain rfl : p0 = pat := by simpa using hj
      rw [firstRfind, if_neg hne]
    | succ j =>
      have h0 : pyRfind t p0 a b = -1 := hprev 0 p0 (Nat.succ_pos j) (by simp)
      rw [firstRfind, if_pos h0]
      exact ih j pat (by simpa using hj) hne
        fun i pat' hi hig => hprev (i + 1) pat' (by omega) (by simpa using hig)

lemma firstRfind_mem (t : List Char) (a b : ℤ) :
    ∀ (ps : List (List Char)) (r : ℤ), firstRfind t a b ps = some r →
      ∃ pat ∈ ps, pyRfind t pat a b = r ∧ r ≠ -1 := by
  intro ps
  induction ps with
  | nil => intro r h; simp [firstRfind] at h
  | cons p0 rest ih =>
    intro r h
    rw [firstRfind] at h
    split_ifs at h with h0
    · obtain ⟨pat, hm, he, hne⟩ := ih r h
      exact ⟨pat, List.mem_cons_of_mem _ hm, he, hne⟩
    · have he := Option.some.inj h
      exact ⟨p0, List.mem_cons_self _ _, he, he ▸ h0⟩

lemma softBreakPos_bounds (t : List Char) (a b : ℤ) (p : ℤ)
    (h : softBreakPos t a b = some p) :
    ∃ q : ℕ, p = (q : ℤ) ∧ pyAdjIdx t.length a ≤ q ∧ q + 2 ≤ pyAdjIdx t.length b := by
  obtain ⟨pat, hm, he, hne⟩ := firstRfind_mem t a b sentencePats p h
  rw [← he] at hne
  obtain ⟨q, hq, h1, h2, -, -⟩ := pyRfind_spec t pat a b hne
  rw [sentencePats_length pat hm] at h2
  exact ⟨q, by rw [← he, hq], h1, h2⟩

/-! ### Chunk-level invariants -/

lemma chunkEnd_adjIdx_le (t : List Char) (cs start : ℤ) (hcs : 0 < cs) :
    (pyAdjIdx t.length (chunkEnd t cs start) : ℤ) ≤ (pyAdjIdx t.length start : ℤ) + cs := by
  rw [chunkEnd]
  split_ifs with hlt
  · cases hsb : softBreakPos t start (start + cs) with
    | none => exact pyAdjIdx_add_le _ _ _ (le_of_lt hcs)
    | some p =>
      obtain ⟨q, rfl, h1, h2⟩ := softBreakPos_bounds t start (start + cs) p hsb
      have hb := pyAdjIdx_add_le t.length start cs (le_of_lt hcs)
      have hle : pyAdjIdx t.length (start + cs) ≤ t.length := pyAdjIdx_le _ _
      have hq1 : ((q : ℤ) + 1) = ((q + 1 : ℕ) : ℤ) := by push_cast; ring
      show ((pyAdjIdx t.length ((q : ℤ) + 1)) : ℤ) ≤ (pyAdjIdx t.length start : ℤ) + cs
      rw [hq1, pyAdjIdx_of_nat t.length (q + 1) (by omega)]
      omega
  · exact pyAdjIdx_add_le _ _ _ (le_of_lt hcs)

lemma chunk_len_le (t : List Char) (cs start : ℤ) (hcs : 0 < cs) :
    ((pyStrip (pySlice t start (chunkEnd t cs start))).length : ℤ) ≤ cs := by
  have h1 : (pyStrip (pySlice t start (chunkEnd t cs start))).length
      ≤ (pySlice t start (chunkEnd t cs start)).length := pyStrip_length_le _
  have h3 := pySlice_length t start (chunkEnd t cs start)
  have h2 := chunkEnd_adjIdx_le t cs start hcs
  omega

lemma chunkLoop_inv (t : List Char) (cs ov : ℤ) (hcs : 0 < cs) :
    ∀ fuel (start : ℤ) acc res, chunkLoop t cs ov fuel start acc = some res →
      (∀ c ∈ acc, c ≠ [] ∧ pyStrip c = c ∧ (c.length : ℤ) ≤ cs) →
      ∀ c ∈ res, c ≠ [] ∧ pyStrip c = c ∧ (c.length : ℤ) ≤ cs := by
  intro fuel
  induction fuel with
  | zero => intro start acc res h; rw [chunkLoop] at h; exact absurd h (by simp)
  | succ fuel ih =>
    intro start acc res h hacc
    rw [chunkLoop] at h
    split_ifs at h with hlt hemp
    · exact ih _ _ _ h hacc
    · refine ih _ _ _ h ?_
      intro c hc
      rcases List.mem_append.mp hc with hc | hc
      · exact hacc c hc
      · obtain rfl : c = pyStrip (pySlice t start (chunkEnd t cs start)) := by
          simpa using hc
        exact ⟨hemp, pyStrip_idem _, chunk_len_le t cs start hcs⟩
    · obtain rfl := Option.some.inj h
      exact hacc

/-! ### Claim theorems about the chunker -/

/-- The text `"a. b! ccc"`, used to separate the code's pattern-priority
soft break from the spec's rightmost-of-any-pattern soft break. -/
def exText : List Char := ['a', '.', ' ', 'b', '!', ' ', 'c', 'c', 'c']

/-- C1, counterexample.  On `"a. b! ccc"` with `start = 0` and
`chunk_size = 8` the tentative end `8` is strictly before the text end
`9`; the rightmost occurrence of any of the six patterns in the window is
`"! "` at position 4, so the claim prescribes `end = 5`, but the code
breaks at the rightmost occurrence of `". "` (the first pattern in the
loop order that occurs at all), giving `end = 2`. -/
theorem chunkEnd_not_rightmost_any :
    chunkEnd exText 8 0 = 2 ∧ specSoftBreakPos exText 0 8 = some 4 ∧
    ¬((2 : ℤ) = 4 + 1) := by decide

/-- C1, amended.  When the tentative end `start + chunk_size` lies
strictly before the text end: if none of the six patterns occurs in the
(index-adjusted) window the chunk end is the tentative hard break
`start + chunk_size`; otherwise, for the FIRST pattern (in the fixed
order `". ", ".\n", "! ", "!\n", "? ", "?\n"`) that occurs in the window,
the chunk end is `p + 1` where `p` is the rightmost in-window occurrence
of that particular pattern — not of all six patterns jointly. -/
theorem chunkEnd_first_pattern_priority (t : List Char) (cs start : ℤ)
    (h : start + cs < (t.length : ℤ)) :
    ((∀ pat ∈ sentencePats,
        patInWindowB t pat (pyAdjIdx t.length start) (pyAdjIdx t.length (start + cs)) = false) →
      chunkEnd t cs start = start + cs) ∧
    (∀ (j : ℕ) (pat : List Char), sentencePats[j]? = some pat →
      patInWindowB t pat (pyAdjIdx t.length start) (pyAdjIdx t.length (start + cs)) = true →
      (∀ (i : ℕ) (pat' : List Char), i < j → sentencePats[i]? = some pat' →
        patInWindowB t pat' (pyAdjIdx t.length start) (pyAdjIdx t.length (start + cs)) = false) →
      ∃ p : ℕ, chunkEnd t cs start = (p : ℤ) + 1 ∧
        pyAdjIdx t.length start ≤ p ∧ p + pat.length ≤ pyAdjIdx t.length (start + cs) ∧
        pat.isPrefixOf (t.drop p) = true ∧
        ∀ q : ℕ, pyAdjIdx t.length start ≤ q →
          q + pat.length ≤ pyAdjIdx t.length (start + cs) →
          pat.isPrefixOf (t.drop q) = true → q ≤ p) := by
  constructor
  · intro hall
    rw [chunkEnd, if_pos h]
    have hnone : softBreakPos t start (start + cs) = none :=
      firstRfind_eq_none t start (start + cs) sentencePats fun pat hm =>
        pyRfind_eq_neg_of_window t pat _ _ (sentencePats_ne_nil pat hm) (hall pat hm)
    rw [hnone]
  · intro j pat hj hw hprev
    have hne : pyRfind t pat start (start + cs) ≠ -1 :=
      pyRfind_ne_neg_of_window t pat _ _ hw
    have hfr : firstRfind t start (start + cs) sentencePats
        = some (pyRfind t pat start (start + cs)) :=
      firstRfind_eq_some t start (start + cs) sentencePats j pat hj hne
        fun i pat' hi hig => pyRfind_eq_neg_of_window t pat' _ _
          (sentencePats_ne_nil pat' (List.getElem?_mem hig)) (hprev i pat' hi hig)
    obtain ⟨p, hp, h1, h2, h3, h4⟩ := pyRfind_spec t pat start (start + cs) hne
    refine ⟨p, ?_, h1, h2, h3, h4⟩
    rw [chunkEnd, if_pos h, softBreakPos, hfr]
    rw [hp]

/-- C1, amended, witness: the amended theorem applied to `"a. b! ccc"`,
`chunk_size = 8`, `start = 0`, with `". "` the first occurring pattern. -/
theorem chunkEnd_first_pattern_priority_witness :
    ((0 : ℤ) + 8 < (exText.length : ℤ)) ∧
    sentencePats[0]? = some ['.', ' '] ∧
    patInWindowB exText ['.', ' '] (pyAdjIdx exText.length 0)
      (pyAdjIdx exText.length (0 + 8)) = true ∧
    (∃ p : ℕ, chunkEnd exText 8 0 = (p : ℤ) + 1 ∧
      pyAdjIdx exText.length 0 ≤ p ∧
      p + (['.', ' '] : List Char).length ≤ pyAdjIdx exText.length (0 + 8) ∧
      (['.', ' '] : List Char).isPrefixOf (exText.drop p) = true ∧
      ∀ q : ℕ, pyAdjIdx exText.length 0 ≤ q →
        q + (['.', ' '] : List Char).length ≤ pyAdjIdx exText.length (0 + 8) →
        (['.', ' '] : List Char).isPrefixOf (exText.drop q) = true → q ≤ p) := by
  refine ⟨by decide, by decide, by decide, ?_⟩
  exact (chunkEnd_first_pattern_priority exText 8 0 (by decide)).2 0 ['.', ' ']
    (by decide) (by decide) (fun i pat' hi _ => absurd hi (Nat.not_lt_zero i))

/-- C2: the code is wrong and the claim (termination for
`chunk_size > 0`, `0 ≤ overlap < chunk_size`, and no infinite loop even
otherwise) states the intent.  On the text `". x"` with
`chunk_size = 2` and `overlap = 1` — parameters satisfying
`0 ≤ overlap < chunk_size` — every iteration finds the soft break at
position 0, sets `end = 1`, and resets `start = end - overlap = 0`, so
the loop never terminates: `chunk_text` runs out of any amount of fuel. -/
theorem chunk_text_nonterminating_on_valid_params :
    (0 : ℤ) ≤ 1 ∧ (1 : ℤ) < 2 ∧
    ∀ fuel : ℕ, chunk_text ['.', ' ', 'x'] 2 1 fuel = none := by
  refine ⟨by decide, by decide, ?_⟩
  intro fuel
  rw [chunk_text, if_neg (by decide)]
  have aux : ∀ fuel acc, chunkLoop ['.', ' ', 'x'] 2 1 fuel 0 acc = none := by
    intro n
    induction n with
    | zero => intro acc; rfl
    | succ n ih =>
      intro acc
      have hstep : chunkEnd ['.', ' ', 'x'] 2 0 = 1 := by decide
      rw [chunkLoop, if_pos (by decide), hstep]
      have hc : pyStrip (pySlice ['.', ' ', 'x'] 0 1) = ['.'] := by decide
      rw [hc, if_neg (by decide), (by decide : (1 - 1 : ℤ) = 0)]
      exact ih (acc ++ [['.']])
  exact aux fuel []

/-- C10: for every text, every `chunk_size > 0` and every overlap (the
Python `int` is modelled as `ℤ`), every chunk produced by a terminating
run of `chunk_text` is non-empty, equal to its own whitespace-trim, and
at most `chunk_size` characters long; and an empty or all-whitespace
text yields the empty chunk list. -/
theorem chunk_text_output_invariants (t : List Char) (cs ov : ℤ) (fuel : ℕ)
    (hcs : 0 < cs) :
    (∀ res, chunk_text t cs ov fuel = some res →
      ∀ c ∈ res, c ≠ [] ∧ pyStrip c = c ∧ (c.length : ℤ) ≤ cs) ∧
    (pyStrip t = [] → chunk_text t cs ov fuel = some []) := by
  constructor
  · intro res h c hc
    rw [chunk_text] at h
    split_ifs at h with hemp
    · obtain rfl := Option.some.inj h
      exact absurd hc (List.not_mem_nil c)
    · exact chunkLoop_inv t cs ov hcs fuel 0 [] res h
        (fun c hc => absurd hc (List.not_mem_nil c)) c hc
  · intro hemp
    rw [chunk_text, if_pos hemp]

/-- C10, witness: `chunk_text "ab" 1 0` terminates with chunks
`["a", "b"]`, and the invariants hold for them. -/
theorem chunk_text_output_invariants_witness :
    (0 : ℤ) < 1 ∧
    chunk_text ['a', 'b'] 1 0 3 = some [['a'], ['b']] ∧
    (∀ c ∈ [['a'], ['b']], c ≠ ([] : List Char) ∧ pyStrip c = c ∧ (c.length : ℤ) ≤ 1) := by
  refine ⟨by decide, by decide, ?_⟩
  exact (chunk_text_output_invariants ['a', 'b'] 1 0 3 (by decide)).1 [['a'], ['b']]
    (by decide)

/-! ### The similarity scorer: Cauchy-Schwarz for list dot products -/

lemma sumSq_nonneg (a : List ℝ) : 0 ≤ sumSq a := by
  rw [sumSq]
  induction a with
  | nil => simp
  | cons x xs ih =>
    simp only [List.map_cons, List.sum_cons]
    exact add_nonneg (sq_nonneg x) ih

lemma sumSq_cons (x : ℝ) (xs : List ℝ) : sumSq (x :: xs) = x ^ 2 + sumSq xs := by
  simp [sumSq]

lemma npDot_cons (x y : ℝ) (xs ys : List ℝ) :
    npDot (x :: xs) (y :: ys) = x * y + npDot xs ys := by
  simp [npDot]

lemma npDot_sq_le (a : List ℝ) : ∀ b, (npDot a b) ^ 2 ≤ sumSq a * sumSq b := by
  induction a with
  | nil =>
    intro b
    have h : npDot [] b = 0 := by simp [npDot]
    rw [h, sumSq]
    simp [mul_nonneg, sumSq_nonneg b]
  | cons x xs ih =>
    intro b
    cases b with
    | nil =>
      have h : npDot (x :: xs) [] = 0 := by simp [npDot]
      rw [h]
      simpa using mul_nonneg (sumSq_nonneg (x :: xs)) (sumSq_nonneg ([] : List ℝ))
    | cons y ys =>
      have hd := ih ys
      have hsa := sumSq_nonneg xs
      have hsb := sumSq_nonneg ys
      rw [npDot_cons, sumSq_cons, sumSq_cons]
      rcases eq_or_lt_of_le hsb with hsb0 | hsbpos
      · have hd2 : (npDot xs ys) ^ 2 = 0 :=
          le_antisymm (by nlinarith) (sq_nonneg _)
        have hd0 : npDot xs ys = 0 := pow_eq_zero_iff two_ne_zero |>.mp hd2
        rw [hd0, ← hsb0]
        nlinarith [mul_nonneg hsa (sq_nonneg y)]
      · nlinarith [sq_nonneg (x * sumSq ys - y * npDot xs ys),
          mul_nonneg (add_nonneg (sq_nonneg y) hsb)
            (sub_nonneg.mpr hd)]

lemma abs_npDot_le (a b : List ℝ) : |npDot a b| ≤ npNorm a * npNorm b := by
  rw [npNorm, npNorm, ← Real.sqrt_mul (sumSq_nonneg a)]
  rw [show |npDot a b| = Real.sqrt ((npDot a b) ^ 2) from (Real.sqrt_sq_eq_abs _).symm]
  exact Real.sqrt_le_sqrt (npDot_sq_le a b)

/-! ### Claim theorems about the similarity scorer -/

/-- C3: on equal-length vectors `calculate_cosine_similarity` returns a
value (no error); the value is exactly `0` when either Euclidean norm is
zero, is the dot product divided by the product of the norms otherwise,
and always lies in `[-1, 1]`. -/
theorem calculate_cosine_similarity_spec (a b : List ℝ) (h : a.length = b.length) :
    ∃ r, calculate_cosine_similarity a b = .ok r ∧ r ∈ Set.Icc (-1 : ℝ) 1 ∧
      ((npNorm a = 0 ∨ npNorm b = 0) → r = 0) ∧
      (npNorm a ≠ 0 → npNorm b ≠ 0 → r = npDot a b / (npNorm a * npNorm b)) := by
  rw [calculate_cosine_similarity, if_neg (fun hc => hc h)]
  split_ifs with hz
  · exact ⟨0, rfl, Set.mem_Icc.mpr ⟨by norm_num, by norm_num⟩,
      fun _ => rfl, fun h1 h2 => absurd hz (by tauto)⟩
  · have hna : 0 < npNorm a :=
      lt_of_le_of_ne (Real.sqrt_nonneg _) (Ne.symm fun h0 => hz (Or.inl h0))
    have hnb : 0 < npNorm b :=
      lt_of_le_of_ne (Real.sqrt_nonneg _) (Ne.symm fun h0 => hz (Or.inr h0))
    have hpos : 0 < npNorm a * npNorm b := mul_pos hna hnb
    have hq : |npDot a b / (npNorm a * npNorm b)| ≤ 1 := by
      rw [abs_div, abs_of_pos hpos]
      exact (div_le_one hpos).mpr (abs_npDot_le a b)
    exact ⟨_, rfl, Set.mem_Icc.mpr (abs_le.mp hq), fun hc => absurd hc hz,
      fun _ _ => rfl⟩

/-- C3, witness: the specification theorem applied to the equal-length
pair `[1, 0]`, `[0, 1]`. -/
theorem calculate_cosine_similarity_spec_witness :
    ([(1 : ℝ), 0].length = [(0 : ℝ), 1].length) ∧
    ∃ r, calculate_cosine_similarity [(1 : ℝ), 0] [(0 : ℝ), 1] = .ok r ∧
      r ∈ Set.Icc (-1 : ℝ) 1 ∧
      ((npNorm [(1 : ℝ), 0] = 0 ∨ npNorm [(0 : ℝ), 1] = 0) → r = 0) ∧
      (npNorm [(1 : ℝ), 0] ≠ 0 → npNorm [(0 : ℝ), 1] ≠ 0 →
        r = npDot [(1 : ℝ), 0] [(0 : ℝ), 1] / (npNorm [(1 : ℝ), 0] * npNorm [(0 : ℝ), 1])) :=
  ⟨rfl, calculate_cosine_similarity_spec [(1 : ℝ), 0] [(0 : ℝ), 1] rfl⟩

/-- C4: on vectors of different lengths `calculate_cosine_similarity`
raises (numpy `ValueError`: shapes not aligned) instead of returning a
value; nothing is truncated. -/
theorem calculate_cosine_similarity_dim_mismatch (a b : List ℝ)
    (h : a.length ≠ b.length) :
    calculate_cosine_similarity a b = .error "shapes not aligned" := by
  rw [calculate_cosine_similarity, if_pos h]

/-- C4, witness: the dimension-mismatch theorem applied to `[1]` and
`[1, 2]`. -/
theorem calculate_cosine_similarity_dim_mismatch_witness :
    ([(1 : ℝ)].length ≠ [(1 : ℝ), 2].length) ∧
    calculate_cosine_similarity [(1 : ℝ)] [(1 : ℝ), 2] = .error "shapes not aligned" :=
  ⟨by simp, calculate_cosine_similarity_dim_mismatch [(1 : ℝ)] [(1 : ℝ), 2] (by simp)⟩

/-! ### Lemmas about the retrieval orchestrator -/

/-- Every record `mkSimRecord` successfully builds copies the hit's chunk
text (all three branches of the Python loop do). -/
lemma mkSimRecord_chunk (q : List ℝ) (h : Hit) (r : SimRecord)
    (hok : mkSimRecord q h = .ok r) : r.chunk = h.chunk := by
  cases hemb : h.embedding with
  | none =>
    rw [mkSimRecord, hemb] at hok
    obtain rfl := Except.ok.inj hok
    rfl
  | some e =>
    cases e with
    | nil =>
      rw [mkSimRecord, hemb] at hok
      obtain rfl := Except.ok.inj hok
      rfl
    | cons e0 es =>
      have key : mkSimRecord q h =
          (match calculate_cosine_similarity q (e0 :: es) with
          | Except.error err => Except.error err
          | Except.ok c =>
            Except.ok ⟨h.chunk, h.distance, c, pyRound2 (c * 100)⟩) := by
        rw [mkSimRecord, hemb]
      rw [key] at hok
      cases hcalc : calculate_cosine_similarity q (e0 :: es) with
      | error err => rw [hcalc] at hok; exact Except.noConfusion hok
      | ok c =>
        rw [hcalc] at hok
        obtain rfl := Except.ok.inj hok
        rfl

lemma processHits_ok (q : List ℝ) (b : Bool) :
    ∀ (hits : List Hit) (p : List (List Char) × List SimRecord),
      processHits q b hits = .ok p →
      p.1 = hits.map Hit.chunk ∧
      (b = true → p.2.length = hits.length ∧
        ∀ i : ℕ, (p.2[i]?).map SimRecord.chunk = (hits[i]?).map Hit.chunk) := by
  intro hits
  induction hits with
  | nil =>
    intro p h
    rw [processHits] at h
    obtain rfl := Except.ok.inj h
    exact ⟨rfl, fun _ => ⟨rfl, fun i => rfl⟩⟩
  | cons hit rest ih =>
    intro p h
    rw [processHits] at h
    cases hfst : (if b then (mkSimRecord q hit).map some else Except.ok none) with
    | error err => rw [hfst] at h; exact absurd h (by simp)
    | ok r =>
      rw [hfst] at h
      cases hrest : processHits q b rest with
      | error err => rw [hrest] at h; exact absurd h (by simp)
      | ok p0 =>
        rw [hrest] at h
        obtain rfl := Except.ok.inj h
        obtain ⟨h1, h2⟩ := ih p0 hrest
        refine ⟨by simp [h1], ?_⟩
        intro hb
        subst hb
        cases hmk : (mkSimRecord q hit).map some with
        | error err => rw [hmk] at hfst; exact absurd hfst (by simp)
        | ok r0 =>
          rw [hmk] at hfst
          obtain rfl := Except.ok.inj hfst
          cases hmk2 : mkSimRecord q hit with
          | error err => rw [hmk2] at hmk; exact Except.noConfusion hmk
          | ok rec =>
            rw [hmk2] at hmk
            obtain rfl := Except.ok.inj hmk
            obtain ⟨hlen0, halign0⟩ := h2 rfl
            have hchunk : rec.chunk = hit.chunk := mkSimRecord_chunk q hit rec hmk2
            constructor
            · show (rec :: p0.2).length = (hit :: rest).length
              simp [hlen0]
            · intro i
              cases i with
              | zero =>
                show ((rec :: p0.2)[0]?).map SimRecord.chunk
                    = ((hit :: rest)[0]?).map Hit.chunk
                simp [hchunk]
              | succ i =>
                show ((rec :: p0.2)[i + 1]?).map SimRecord.chunk
                    = ((hit :: rest)[i + 1]?).map Hit.chunk
                rw [List.getElem?_cons_succ, List.getElem?_cons_succ]
                exact halign0 i

lemma mkSimRecord_ok (q : List ℝ) (hq : q ≠ []) (h : Hit)
    (hdim : ∀ e, h.embedding = some e → e.length = q.length) :
    ∃ r, mkSimRecord q h = .ok r ∧ r.chunk = h.chunk ∧ r.l2 = h.distance ∧
      (h.embedding = none → r.cosine = max (-1) (min 1 (1 - h.distance ^ 2 / 2))) ∧
      (∀ e, h.embedding = some e → calculate_cosine_similarity q e = .ok r.cosine) ∧
      r.percentage = pyRound2 (r.cosine * 100) := by
  cases hemb : h.embedding with
  | none =>
    refine ⟨fallbackRecord h, ?_, rfl, rfl, fun _ => rfl, ?_, rfl⟩
    · rw [mkSimRecord, hemb]
    · intro e he
      exact absurd he (by simp)
  | some e =>
    have hlen : e.length = q.length := hdim e hemb
    have hept : e ≠ [] := by
      intro hc
      rw [hc] at hlen
      exact hq (List.eq_nil_of_length_eq_zero hlen.symm)
    obtain ⟨c, hok, hmem, hz, hnz⟩ := calculate_cosine_similarity_spec q e hlen.symm
    cases e with
    | nil => exact absurd rfl hept
    | cons e0 es =>
      refine ⟨⟨h.chunk, h.distance, c, pyRound2 (c * 100)⟩, ?_, rfl, rfl, ?_, ?_, rfl⟩
      · have key : mkSimRecord q h =
            (match calculate_cosine_similarity q (e0 :: es) with
            | Except.error err => Except.error err
            | Except.ok c =>
              Except.ok ⟨h.chunk, h.distance, c, pyRound2 (c * 100)⟩) := by
          rw [mkSimRecord, hemb]
        rw [key, hok]
      · intro hcon
        exact absurd hcon (by simp)
      · intro e' he'
        obtain rfl : e0 :: es = e' := Option.some.inj he'
        exact hok

lemma processHits_records (q : List ℝ) (hq : q ≠ []) :
    ∀ hits : List Hit,
      (∀ h ∈ hits, ∀ e, h.embedding = some e → e.length = q.length) →
      ∃ cs rs, processHits q true hits = .ok (cs, rs) ∧ rs.length = hits.length ∧
        ∀ (i : ℕ) (h : Hit) (r : SimRecord), hits[i]? = some h → rs[i]? = some r →
          r.chunk = h.chunk ∧ r.l2 = h.distance ∧
          (h.embedding = none → r.cosine = max (-1) (min 1 (1 - h.distance ^ 2 / 2))) ∧
          (∀ e, h.embedding = some e → calculate_cosine_similarity q e = .ok r.cosine) ∧
          r.percentage = pyRound2 (r.cosine * 100) := by
  intro hits
  induction hits with
  | nil =>
    intro _
    refine ⟨[], [], rfl, rfl, fun i h r hi => ?_⟩
    rw [List.getElem?_nil] at hi
    exact Option.noConfusion hi
  | cons hit rest ih =>
    intro hdim
    obtain ⟨r0, hok0, hc0, hl0, hcn0, hce0, hp0⟩ :=
      mkSimRecord_ok q hq hit (hdim hit (List.mem_cons_self hit rest))
    obtain ⟨cs, rs, hps, hlen, hrec⟩ :=
      ih fun h hm e he => hdim h (List.mem_cons_of_mem _ hm) e he
    refine ⟨hit.chunk :: cs, r0 :: rs, ?_, by simp [hlen], ?_⟩
    · have key : processHits q true (hit :: rest) =
          match (mkSimRecord q hit).map some with
          | .error err => .error err
          | .ok r =>
            match processHits q true rest with
            | .error err => .error err
            | .ok p =>
              .ok (hit.chunk :: p.1, match r with | some r => r :: p.2 | none => p.2) := rfl
      rw [key, hok0, hps]
      rfl
    · intro i h r hi hr
      cases i with
      | zero =>
        rw [List.getElem?_cons_zero] at hi hr
        obtain rfl := Option.some.inj hi
        obtain rfl := Option.some.inj hr
        exact ⟨hc0, hl0, hcn0, hce0, hp0⟩
      | succ i =>
        rw [List.getElem?_cons_succ] at hi hr
        exact hrec i h r hi hr

/-! ### Claim theorems about the retrieval orchestrator -/

/-- C6: whatever hit sequence the vector store returns, `retrieve_context`
returns the chunk texts in exactly that order (no re-sorting), and when
similarity diagnostics are requested the similarity-record list is
parallel to the chunk list: same length, and the record at each index is
the record of the chunk at that index. -/
theorem retrieve_context_preserves_store_order (e : List Char → List ℝ)
    (s : List ℝ → Bool → List Hit) (q : List Char) (b : Bool) (ov : Option (List ℝ)) :
    match (retrieve_context e s q b ov).1 with
    | .error _ => True
    | .ok (.plain cs) => cs = (s (queryVec e q ov).1 b).map Hit.chunk
    | .ok (.withSims cs rs) =>
        cs = (s (queryVec e q ov).1 b).map Hit.chunk ∧ rs.length = cs.length ∧
        ∀ i : ℕ, (rs[i]?).map SimRecord.chunk = cs[i]? := by
  have key : (retrieve_context e s q b ov).1
      = (processHits (queryVec e q ov).1 b (s (queryVec e q ov).1 b)).map
          (fun p => finishRetrieve b p.1 p.2) := rfl
  rw [key]
  cases hp : processHits (queryVec e q ov).1 b (s (queryVec e q ov).1 b) with
  | error err => exact trivial
  | ok p =>
    obtain ⟨h1, h2⟩ := processHits_ok (queryVec e q ov).1 b _ p hp
    cases b with
    | false => exact h1
    | true =>
      obtain ⟨hlen, halign⟩ := h2 rfl
      refine ⟨h1, ?_, ?_⟩
      · rw [hlen, h1, List.length_map]
      · intro i
        rw [h1, List.getElem?_map]
        exact halign i

/-- C5: with similarity diagnostics requested, and under the deployment
invariant that every stored embedding has the query dimension (and the
query vector is non-empty), `retrieve_context` succeeds; every hit whose
stored embedding is unavailable gets the fallback cosine
`1 - distance² / 2` clamped into `[-1, 1]`, every hit whose embedding is
available gets the exact cosine of the stored embedding against the query
vector, and every record's `similarity_percentage` is
`round(cosine * 100, 2)`. -/
theorem retrieve_context_similarity_records (e : List Char → List ℝ)
    (s : List ℝ → Bool → List Hit) (q : List Char) (ov : Option (List ℝ))
    (hq : (queryVec e q ov).1 ≠ [])
    (hdim : ∀ h ∈ s (queryVec e q ov).1 true, ∀ emb, h.embedding = some emb →
      emb.length = (queryVec e q ov).1.length) :
    ∃ cs rs, (retrieve_context e s q true ov).1 = .ok (.withSims cs rs) ∧
      rs.length = (s (queryVec e q ov).1 true).length ∧
      ∀ (i : ℕ) (h : Hit) (r : SimRecord),
        (s (queryVec e q ov).1 true)[i]? = some h → rs[i]? = some r →
        r.chunk = h.chunk ∧ r.l2 = h.distance ∧
        (h.embedding = none → r.cosine = max (-1) (min 1 (1 - h.distance ^ 2 / 2))) ∧
        (∀ emb, h.embedding = some emb →
          calculate_cosine_similarity (queryVec e q ov).1 emb = .ok r.cosine) ∧
        r.percentage = pyRound2 (r.cosine * 100) := by
  obtain ⟨cs, rs, hps, hlen, hrec⟩ := processHits_records (queryVec e q ov).1 hq _ hdim
  refine ⟨cs, rs, ?_, hlen, hrec⟩
  have key : (retrieve_context e s q true ov).1
      = (processHits (queryVec e q ov).1 true (s (queryVec e q ov).1 true)).map
          (fun p => finishRetrieve true p.1 p.2) := rfl
  rw [key, hps]
  rfl

/-- C9: when a precomputed query vector is supplied, `retrieve_context`
makes zero embedding-service calls, issues the store search with exactly
that vector, and its behaviour does not depend on the embedding service
at all; without a precomputed vector the embedding service is called
exactly once and the search uses its result. -/
theorem retrieve_context_precomputed_vector_frame (e1 e2 : List Char → List ℝ)
    (s : List ℝ → Bool → List Hit) (q : List Char) (b : Bool) (v : List ℝ) :
    (retrieve_context e1 s q b (some v)).2 = 0 ∧
    (retrieve_context e1 s q b (some v)).1
      = (processHits v b (s v b)).map (fun p => finishRetrieve b p.1 p.2) ∧
    retrieve_context e1 s q b (some v) = retrieve_context e2 s q b (some v) ∧
    (retrieve_context e1 s q b none).2 = 1 ∧
    (retrieve_context e1 s q b none).1
      = (processHits (e1 q) b (s (e1 q) b)).map (fun p => finishRetrieve b p.1 p.2) :=
  ⟨rfl, rfl, rfl, rfl, rfl⟩

/-- C5, witness: the similarity-record theorem applied to the store
response `[⟨"a", 2, no embedding⟩]` with precomputed query vector
`[1, 0]`. -/
theorem retrieve_context_similarity_records_witness :
    ((queryVec (fun _ => [(1 : ℝ)]) ['q'] (some [(1 : ℝ), 0])).1 ≠ []) ∧
    (∀ h ∈ (fun (_ : List ℝ) (_ : Bool) => [Hit.mk ['a'] (2 : ℝ) none])
        (queryVec (fun _ => [(1 : ℝ)]) ['q'] (some [(1 : ℝ), 0])).1 true,
      ∀ emb, h.embedding = some emb →
        emb.length = (queryVec (fun _ => [(1 : ℝ)]) ['q'] (some [(1 : ℝ), 0])).1.length) ∧
    (∃ cs rs,
      (retrieve_context (fun _ => [(1 : ℝ)])
          (fun _ _ => [Hit.mk ['a'] (2 : ℝ) none]) ['q'] true (some [(1 : ℝ), 0])).1
        = .ok (.withSims cs rs) ∧
      rs.length = ((fun (_ : List ℝ) (_ : Bool) => [Hit.mk ['a'] (2 : ℝ) none])
        (queryVec (fun _ => [(1 : ℝ)]) ['q'] (some [(1 : ℝ), 0])).1 true).length ∧
      ∀ (i : ℕ) (h : Hit) (r : SimRecord),
        ((fun (_ : List ℝ) (_ : Bool) => [Hit.mk ['a'] (2 : ℝ) none])
          (queryVec (fun _ => [(1 : ℝ)]) ['q'] (some [(1 : ℝ), 0])).1 true)[i]? = some h →
        rs[i]? = some r →
        r.chunk = h.chunk ∧ r.l2 = h.distance ∧
        (h.embedding = none → r.cosine = max (-1) (min 1 (1 - h.distance ^ 2 / 2))) ∧
        (∀ emb, h.embedding = some emb →
          calculate_cosine_similarity
            (queryVec (fun _ => [(1 : ℝ)]) ['q'] (some [(1 : ℝ), 0])).1 emb = .ok r.cosine) ∧
        r.percentage = pyRound2 (r.cosine * 100)) :=
  ⟨by simp [queryVec],
   fun h hm emb he => absurd (List.mem_singleton.mp hm ▸ he) (by simp),
   retrieve_context_similarity_records (fun _ => [(1 : ℝ)])
     (fun _ _ => [Hit.mk ['a'] (2 : ℝ) none]) ['q'] (some [(1 : ℝ), 0])
     (by simp [queryVec])
     (fun h hm emb he => absurd (List.mem_singleton.mp hm ▸ he) (by simp))⟩

/-! ### Lemmas about the vector-store client -/

lemma escape_file_id_append (xs ys : List Char) :
    escape_file_id (xs ++ ys) = escape_file_id xs ++ escape_file_id ys := by
  simp [escape_file_id, pyReplace, List.flatMap_append]

lemma escape_file_id_singleton (c : Char) : escape_file_id [c] = escChar c := by
  by_cases h1 : c = sqChar
  · subst h1; decide
  · by_cases h2 : c = dqChar
    · subst h2; decide
    · simp [escape_file_id, pyReplace, escChar, h1, h2]

lemma escape_file_id_eq (s : List Char) : escape_file_id s = s.flatMap escChar := by
  induction s with
  | nil => rfl
  | cons c cr ih =>
    rw [show c :: cr = [c] ++ cr from rfl, escape_file_id_append,
      escape_file_id_singleton, List.flatMap_append, ih]
    rw [show ([c] : List Char).flatMap escChar = escChar c ++ [].flatMap escChar from
      List.flatMap_cons c [] escChar]
    simp

/-! ### Claim theorems about the vector-store client -/

/-- C7, counterexample.  The file id `"a'b"` contains a single quote — a
character the claim calls unsafe and requires to be rejected with a
validation error before the query is issued — yet `search_similar`
raises nothing: it escapes the quote and issues the search with the
filter expression `file_id == 'a\'b'`. -/
theorem search_similar_quote_not_rejected :
    search_similar ['a', sqChar, 'b'] false =
      .ok ⟨exprPrefix ++ ['a', bsChar, sqChar, 'b'] ++ [sqChar], false⟩ := by rfl

/-- C7, amended.  `search_similar` raises `ValueError` before issuing the
query exactly when the file id is empty or whitespace-only; for every
other file id — including ones containing quotes, backslashes or control
characters — the query IS issued, with the stripped file id interpolated
into the filter expression after escaping each single or double quote
with a backslash (other characters, including backslashes and control
characters, pass through unchanged). -/
theorem search_similar_escapes_not_rejects (fid : List Char) (inc : Bool) :
    (pyStrip fid = [] → search_similar fid inc = .error "file_id cannot be empty") ∧
    (pyStrip fid ≠ [] →
      search_similar fid inc =
        .ok ⟨exprPrefix ++ (pyStrip fid).flatMap escChar ++ [sqChar], inc⟩) := by
  constructor
  · intro h
    rw [search_similar, if_pos (Or.inr h)]
  · intro h
    have hfid : ¬(fid = [] ∨ pyStrip fid = []) := by
      rintro (rfl | hc)
      · exact h rfl
      · exact h hc
    rw [search_similar, if_neg hfid, escape_file_id_eq]

/-- C7, amended, witness: the amended theorem applied to the file id
`"x\""` (containing a double quote), whose query is issued with the
quote escaped. -/
theorem search_similar_escapes_not_rejects_witness :
    pyStrip ['x', dqChar] ≠ [] ∧
    search_similar ['x', dqChar] true =
      .ok ⟨exprPrefix ++ (pyStrip ['x', dqChar]).flatMap escChar ++ [sqChar], true⟩ :=
  ⟨by decide, (search_similar_escapes_not_rejects ['x', dqChar] true).2 (by decide)⟩

/-- C8: whenever the chunk list and the embedding list have different
lengths, or some embedding's dimension differs from the configured 1536,
`insert_chunks` raises a `ValueError` and issues no store operation at
all (no insert, no flush): the store is left unchanged. -/
theorem insert_chunks_validation_before_persist {α : Type} (fid : List Char)
    (chunks : List (List Char)) (embeddings : List (List α))
    (h : chunks.length ≠ embeddings.length ∨ ∃ e ∈ embeddings, e.length ≠ 1536) :
    (∃ msg, (insert_chunks fid chunks embeddings).1 = .error msg) ∧
    (insert_chunks fid chunks embeddings).2 = [] := by
  rw [insert_chunks]
  split_ifs with h1 h2 h3 h4 h5 h6
  · exact ⟨⟨_, rfl⟩, rfl⟩
  · exact ⟨⟨_, rfl⟩, rfl⟩
  · exact ⟨⟨_, rfl⟩, rfl⟩
  · exact ⟨⟨_, rfl⟩, rfl⟩
  · exact ⟨⟨_, rfl⟩, rfl⟩
  · exact ⟨⟨_, rfl⟩, rfl⟩
  · exfalso
    rcases h with h | ⟨e, he, hlen⟩
    · exact h4 h
    · exact h6 (List.any_eq_true.mpr ⟨e, he, by simpa using hlen⟩)

/-- C8, witness: one chunk with one embedding of dimension 2 ≠ 1536 —
`insert_chunks` errors and the store-event trace is empty. -/
theorem insert_chunks_validation_before_persist_witness :
    ((([['a']] : List (List Char)).length ≠ ([[1, 2]] : List (List ℕ)).length) ∨
      ∃ e ∈ ([[1, 2]] : List (List ℕ)), e.length ≠ 1536) ∧
    (∃ msg, (insert_chunks ['f'] [['a']] ([[1, 2]] : List (List ℕ))).1 = .error msg) ∧
    (insert_chunks ['f'] [['a']] ([[1, 2]] : List (List ℕ))).2 = [] :=
  ⟨by decide,
   insert_chunks_validation_before_persist ['f'] [['a']] [[1, 2]] (by decide)⟩

end RagSpec
